import Mathlib

/-!
goconcurrentqueue: the FIFO queue of `fifo_queue.go`

A shallow embedding of the `FIFO` type and its methods, followed by the
properties established about them.

Modelling conventions

* `interface{}` values stored in the queue are opaque: the element type is a
  parameter `α`.  A returned `interface{}` that may be `nil` is an `Option α`.
* A Go `error` is observed through its `Error()` text only; a returned `error`
  that may be `nil` is an `Option GoError`.
* Go `int` is modelled by `Int`.  The only arithmetic on it is `index+1` in
  `Remove`, reached only when `index < len(st.slice)`, so it cannot wrap.
* A slice is modelled by the list of its elements.  The queue never hands out
  a slice, so the backing array is not observable from outside.
* Indexing and slicing can panic at run time; functions that contain such an
  expression return an `Outcome`.
* `rwmutex` and `lockRWmutex` are acquired at the start of a method and
  released by `defer` on every way out (a panic included), so between two
  calls of a sequential run both are free; they are not part of the state.
-/

namespace goconcurrentqueue

/-! ## Go run-time primitives used by the source -/

/-- Go `error` value, observed through the text its `Error()` method gives. -/
structure GoError where
  text : String
deriving DecidableEq, Repr

/-- Go `errors.New(text)`. -/
def errors_New (text : String) : GoError := ⟨text⟩

/-- Go `fmt.Errorf(format)` for a format string without verbs. -/
def fmt_Errorf (format : String) : GoError := ⟨format⟩

/-- Go `fmt.Errorf(lead ++ "%v", index)` for an `int` argument: the verb is
replaced by the decimal rendering of `index`. -/
def fmt_Errorf_v (lead : String) (index : Int) : GoError := ⟨lead ++ toString index⟩

/-- Run-time panics raised by index and slice expressions. -/
inductive RuntimeError where
  /-- The panic `index out of range [index] with length length`. -/
  | indexOutOfRange (index : Int) (length : Nat)
  /-- The panic `slice bounds out of range` for the offending bound. -/
  | sliceBoundsOutOfRange (bound : Int) (length : Nat)
deriving DecidableEq, Repr

/-- Result of evaluating Go code that may panic. -/
inductive Outcome (β : Type) where
  /-- Normal completion with a value. -/
  | ret (b : β)
  /-- The evaluation panicked. -/
  | panic (e : RuntimeError)
deriving DecidableEq, Repr

/-- Sequencing: a panic in the first computation aborts the rest. -/
def Outcome.bind {β γ : Type} (o : Outcome β) (f : β → Outcome γ) : Outcome γ :=
  match o with
  | .ret b => f b
  | .panic e => .panic e

/-- Go index expression `s[i]`: panics unless `0 <= i < len(s)`. -/
def goIndex {α : Type} (s : List α) (i : Int) : Outcome α :=
  if 0 ≤ i then
    match s[i.toNat]? with
    | some x => .ret x
    | none => .panic (.indexOutOfRange i s.length)
  else .panic (.indexOutOfRange i s.length)

/-- Go slice expression `s[lo:]`: panics unless `0 <= lo <= len(s)`. -/
def goSliceFrom {α : Type} (s : List α) (lo : Int) : Outcome (List α) :=
  if 0 ≤ lo ∧ lo ≤ (s.length : Int) then .ret (s.drop lo.toNat)
  else .panic (.sliceBoundsOutOfRange lo s.length)

/-- Go slice expression `s[:hi]`: panics when `hi < 0` or `hi` is past the
end.  (Go admits `hi` up to the capacity; the only use in the source has
`hi < len(s)`, where length and capacity give the same answer.) -/
def goSliceTo {α : Type} (s : List α) (hi : Int) : Outcome (List α) :=
  if 0 ≤ hi ∧ hi ≤ (s.length : Int) then .ret (s.take hi.toNat)
  else .panic (.sliceBoundsOutOfRange hi s.length)

/-! ## The queue -/

/-- The `FIFO` struct: the slice of stored values and the lock gate. -/
structure FIFO (α : Type) where
  slice : List α
  isLocked : Bool
deriving DecidableEq, Repr

/-- The source's `initialize` method: `st.slice = make([]interface{}, 0)`. -/
def FIFO.init {α : Type} (st : FIFO α) : FIFO α :=
  { st with slice := [] }

/-- `NewFIFO`: the zero value of the struct, then `initialize`. -/
def NewFIFO (α : Type) : FIFO α :=
  FIFO.init { slice := [], isLocked := false }

/-- `Enqueue`: gate check, then `st.slice = append(st.slice, value)`. -/
def Enqueue {α : Type} (st : FIFO α) (value : α) : FIFO α × Option GoError :=
  if st.isLocked then
    (st, some (errors_New "The queue is locked"))
  else
    ({ st with slice := st.slice ++ [value] }, none)

/-- `Dequeue`: gate check, emptiness check, then `st.slice[0]` is returned and
`st.slice = st.slice[1:]`. -/
def Dequeue {α : Type} (st : FIFO α) : Outcome (FIFO α × Option α × Option GoError) :=
  if st.isLocked then
    .ret (st, none, some (errors_New "The queue is locked"))
  else
    let len : Int := st.slice.length
    if len = 0 then
      .ret (st, none, some (fmt_Errorf "queue is empty"))
    else
      (goIndex st.slice 0).bind fun elementToReturn =>
      (goSliceFrom st.slice 1).bind fun tail =>
      .ret ({ st with slice := tail }, some elementToReturn, none)

/-- `Get`: gate check, the test `len(st.slice) <= index`, then `st.slice[index]`.
The queue is handed back as it was: the method assigns to no field. -/
def Get {α : Type} (st : FIFO α) (index : Int) : Outcome (FIFO α × Option α × Option GoError) :=
  if st.isLocked then
    .ret (st, none, some (errors_New "The queue is locked"))
  else if (st.slice.length : Int) ≤ index then
    .ret (st, none, some (fmt_Errorf_v "index out of bounds: " index))
  else
    (goIndex st.slice index).bind fun x =>
    .ret (st, some x, none)

/-- `Remove`: gate check, the test `len(st.slice) <= index`, then
`st.slice = append(st.slice[:index], st.slice[index+1:]...)`.  The append
writes inside the capacity of `st.slice[:index]`, moving the elements after
`index` one place down; the resulting slice holds the two parts in order. -/
def Remove {α : Type} (st : FIFO α) (index : Int) : Outcome (FIFO α × Option GoError) :=
  if st.isLocked then
    .ret (st, some (errors_New "The queue is locked"))
  else if (st.slice.length : Int) ≤ index then
    .ret (st, some (fmt_Errorf_v "index out of bounds: " index))
  else
    (goSliceTo st.slice index).bind fun front =>
    (goSliceFrom st.slice (index + 1)).bind fun back =>
    .ret ({ st with slice := front ++ back }, none)

/-- `GetLen`: `len(st.slice)`. -/
def GetLen {α : Type} (st : FIFO α) : Int := st.slice.length

/-- `Lock`: `st.isLocked = true`. -/
def Lock {α : Type} (st : FIFO α) : FIFO α := { st with isLocked := true }

/-- `Unlock`: `st.isLocked = false`. -/
def Unlock {α : Type} (st : FIFO α) : FIFO α := { st with isLocked := false }

/-- `IsLocked`: the current value of `st.isLocked`. -/
def IsLocked {α : Type} (st : FIFO α) : Bool := st.isLocked

/-! ## Sequential runs -/

/-- One call of a method of the queue, with its arguments. -/
inductive Op (α : Type) where
  | Enqueue (value : α)
  | Dequeue
  | Get (index : Int)
  | Remove (index : Int)
  | GetLen
  | Lock
  | Unlock
  | IsLocked
deriving DecidableEq, Repr

/-- What the caller observes of one call. -/
inductive Res (α : Type) where
  /-- The `error` returned by `Enqueue` or `Remove` (`none` is `nil`). -/
  | error (err : Option GoError)
  /-- The pair returned by `Dequeue` or `Get`. -/
  | valueError (value : Option α) (err : Option GoError)
  /-- The `int` returned by `GetLen`. -/
  | int (n : Int)
  /-- The `bool` returned by `IsLocked`. -/
  | bool (b : Bool)
  /-- Return of `Lock` or `Unlock`, which have no result. -/
  | done
  /-- The call did not return: it panicked. -/
  | panicked (e : RuntimeError)
deriving DecidableEq, Repr

/-- Whether the call ended in a panic. -/
def Res.isPanic {α : Type} : Res α → Bool
  | .panicked _ => true
  | _ => false

/-- Performs one call on the queue `st`.  A call that panics has assigned to no
field before the panicking expression and releases its mutex while unwinding,
so the queue is left as it was. -/
def call {α : Type} (st : FIFO α) : Op α → FIFO α × Res α
  | .Enqueue value => ((Enqueue st value).1, .error (Enqueue st value).2)
  | .Dequeue =>
    match Dequeue st with
    | .ret (st1, value, err) => (st1, .valueError value err)
    | .panic e => (st, .panicked e)
  | .Get index =>
    match Get st index with
    | .ret (st1, value, err) => (st1, .valueError value err)
    | .panic e => (st, .panicked e)
  | .Remove index =>
    match Remove st index with
    | .ret (st1, err) => (st1, .error err)
    | .panic e => (st, .panicked e)
  | .GetLen => (st, .int (GetLen st))
  | .Lock => (Lock st, .done)
  | .Unlock => (Unlock st, .done)
  | .IsLocked => (st, .bool (IsLocked st))

/-- Performs the calls `ops` one after the other, starting from `st`, and gives
the queue at the end together with the log of calls made and what each gave.
When a call panics and `recover` is `false` the run ends there (an unrecovered
panic ends the program, later calls are never made); when `recover` is `true`
the caller recovers from the panic and goes on with the next call. -/
def run {α : Type} (recover : Bool) (st : FIFO α) : List (Op α) → FIFO α × List (Op α × Res α)
  | [] => (st, [])
  | op :: ops =>
    if (call st op).2.isPanic && !recover then
      ((call st op).1, [(op, (call st op).2)])
    else
      ((run recover (call st op).1 ops).1, (op, (call st op).2) :: (run recover (call st op).1 ops).2)

/-- A logged `Enqueue` call that returned a `nil` error. -/
def okEnqueue {α : Type} : Op α × Res α → Bool
  | (.Enqueue _, .error none) => true
  | _ => false

/-- A logged `Dequeue` call that returned a `nil` error. -/
def okDequeue {α : Type} : Op α × Res α → Bool
  | (.Dequeue, .valueError _ none) => true
  | _ => false

/-- A logged `Remove` call that returned a `nil` error. -/
def okRemove {α : Type} : Op α × Res α → Bool
  | (.Remove _, .error none) => true
  | _ => false

/-- The error a call returned, when it returned one that is not `nil`. -/
def Res.err? {α : Type} : Res α → Option GoError
  | .error err => err
  | .valueError _ err => err
  | _ => none

/-- The four methods that start with the gate check. -/
def Op.isGated {α : Type} : Op α → Bool
  | .Enqueue _ => true
  | .Dequeue => true
  | .Get _ => true
  | .Remove _ => true
  | _ => false

/-- Whether the call is a `Remove`. -/
def Op.isRemove {α : Type} : Op α → Bool
  | .Remove _ => true
  | _ => false

/-- The values passed to the logged `Enqueue` calls that returned a `nil`
error, in call order. -/
def enqueuedValues {α : Type} : List (Op α × Res α) → List α
  | [] => []
  | (.Enqueue value, .error none) :: log => value :: enqueuedValues log
  | _ :: log => enqueuedValues log

/-- The values returned by the logged `Dequeue` calls that returned a `nil`
error, in call order. -/
def dequeuedValues {α : Type} : List (Op α × Res α) → List α
  | [] => []
  | (.Dequeue, .valueError (some value) none) :: log => value :: dequeuedValues log
  | _ :: log => dequeuedValues log

/-- The number a string of decimal digits stands for, most significant digit
first. -/
def decimalValue (cs : List Char) : Nat :=
  cs.foldl (fun acc c => acc * 10 + (c.toNat - 48)) 0

/-! ## Basic facts about the primitives -/

theorem goIndex_neg {α : Type} (s : List α) (i : Int) (h : i < 0) :
    goIndex s i = .panic (.indexOutOfRange i s.length) := by
  simp [goIndex, not_le.mpr h]

theorem goSliceTo_neg {α : Type} (s : List α) (i : Int) (h : i < 0) :
    goSliceTo s i = .panic (.sliceBoundsOutOfRange i s.length) := by
  have : ¬ (0 ≤ i) := not_le.mpr h
  simp [goSliceTo, this]

theorem Dequeue_cons {α : Type} (x : α) (rest : List α) :
    Dequeue (⟨x :: rest, false⟩ : FIFO α) = .ret (⟨rest, false⟩, some x, none) := by
  have h : ¬ ((rest.length : Int) + 1 = 0) := by omega
  simp [Dequeue, goIndex, goSliceFrom, Outcome.bind, h]

theorem Dequeue_nil {α : Type} :
    Dequeue (⟨[], false⟩ : FIFO α) = .ret (⟨[], false⟩, none, some (fmt_Errorf "queue is empty")) := by
  simp [Dequeue]

theorem Enqueue_unlocked {α : Type} (xs : List α) (v : α) :
    Enqueue (⟨xs, false⟩ : FIFO α) v = (⟨xs ++ [v], false⟩, none) := by
  simp [Enqueue]

theorem Get_in_range {α : Type} (xs : List α) (n : Nat) (x : α) (hx : xs[n]? = some x) :
    Get (⟨xs, false⟩ : FIFO α) (n : Int) = .ret (⟨xs, false⟩, some x, none) := by
  have hn : n < xs.length := (List.getElem?_eq_some_iff.mp hx).1
  have h : ¬ ((xs.length : Int) ≤ (n : Int)) := by omega
  simp [Get, h, goIndex, Outcome.bind, hx]

theorem Remove_in_range {α : Type} (xs : List α) (n : Nat) (hn : n < xs.length) :
    Remove (⟨xs, false⟩ : FIFO α) (n : Int) = .ret (⟨xs.eraseIdx n, false⟩, none) := by
  have h : ¬ ((xs.length : Int) ≤ (n : Int)) := by omega
  have h1 : (n : Int) ≤ (xs.length : Int) := by omega
  have h2 : (n : Int) + 1 ≤ (xs.length : Int) := by omega
  have h3 : (0 : Int) ≤ (n : Int) + 1 := by omega
  have h4 : ((n : Int) + 1).toNat = n + 1 := by omega
  simp [Remove, h, goSliceTo, goSliceFrom, Outcome.bind, h1, h2, h3, h4,
    List.eraseIdx_eq_take_drop_succ]

theorem run_enqueues {α : Type} (recover : Bool) (vs xs : List α) (rest : List (Op α)) :
    run recover (⟨xs, false⟩ : FIFO α) (vs.map Op.Enqueue ++ rest)
      = ((run recover (⟨xs ++ vs, false⟩ : FIFO α) rest).1,
          vs.map (fun v => (Op.Enqueue v, Res.error none))
            ++ (run recover (⟨xs ++ vs, false⟩ : FIFO α) rest).2) := by
  induction vs generalizing xs with
  | nil => simp
  | cons v vs ih =>
    simp [run, call, Enqueue_unlocked, Res.isPanic, ih]

theorem run_dequeues {α : Type} (recover : Bool) (vs : List α) :
    run recover (⟨vs, false⟩ : FIFO α) (List.replicate vs.length Op.Dequeue)
      = (⟨[], false⟩, vs.map (fun v => (Op.Dequeue, Res.valueError (some v) none))) := by
  induction vs with
  | nil => simp [run]
  | cons v vs ih =>
    simp [run, call, Dequeue_cons, Res.isPanic, List.replicate_succ, ih]

/-! ## The operations one at a time -/

/-- C1 (FIFO order).  Starting from a new queue, enqueueing `v1 .. vN` in that
order and then calling `Dequeue` N times: every call returns a `nil` error, the
k-th `Dequeue` returns `vk`, and the queue at the end is the new, empty one. -/
theorem fifo_order {α : Type} (recover : Bool) (vs : List α) :
    run recover (NewFIFO α) (vs.map Op.Enqueue ++ List.replicate vs.length Op.Dequeue)
      = (NewFIFO α,
          vs.map (fun v => (Op.Enqueue v, Res.error none))
            ++ vs.map (fun v => (Op.Dequeue, Res.valueError (some v) none))) := by
  have h := run_enqueues recover vs [] (List.replicate vs.length Op.Dequeue)
  simp only [List.nil_append, run_dequeues] at h
  simpa [NewFIFO, FIFO.init] using h

/-- C2 (Dequeue removes the head).  On an unlocked queue whose sequence is `x`
followed by `rest`, `Dequeue` returns `x` with a `nil` error and the sequence
becomes `rest`: one element fewer, and the element that was at position `j+1`
is now at position `j`. -/
theorem Dequeue_head {α : Type} (st : FIFO α) (x : α) (rest : List α)
    (hl : st.isLocked = false) (hs : st.slice = x :: rest) :
    Dequeue st = .ret ({ st with slice := rest }, some x, none)
      ∧ GetLen ({ st with slice := rest } : FIFO α) = GetLen st - 1
      ∧ ∀ j : Nat, rest[j]? = st.slice[j + 1]? := by
  obtain ⟨xs, b⟩ := st
  simp only at hl hs
  subst hl hs
  refine ⟨Dequeue_cons x rest, ?_, ?_⟩
  · simp [GetLen]
  · intro j
    simp

theorem Dequeue_head_witness :
    Dequeue (⟨[7, 8, 9], false⟩ : FIFO Nat) = .ret (⟨[8, 9], false⟩, some 7, none)
      ∧ GetLen (⟨[8, 9], false⟩ : FIFO Nat) = GetLen (⟨[7, 8, 9], false⟩ : FIFO Nat) - 1
      ∧ ∀ j : Nat, [8, 9][j]? = [7, 8, 9][j + 1]? :=
  Dequeue_head ⟨[7, 8, 9], false⟩ 7 [8, 9] rfl rfl

/-- C3 (Enqueue appends at the tail).  On an unlocked queue with sequence `xs`,
`Enqueue v` returns a `nil` error and the sequence becomes `xs` followed by `v`:
one element more, every earlier element at the position it had, and `v` last. -/
theorem Enqueue_appends {α : Type} (st : FIFO α) (v : α) (hl : st.isLocked = false) :
    Enqueue st v = ({ st with slice := st.slice ++ [v] }, none)
      ∧ GetLen (Enqueue st v).1 = GetLen st + 1
      ∧ (∀ j : Nat, j < st.slice.length → (Enqueue st v).1.slice[j]? = st.slice[j]?)
      ∧ (Enqueue st v).1.slice[st.slice.length]? = some v := by
  obtain ⟨xs, b⟩ := st
  simp only at hl
  subst hl
  refine ⟨Enqueue_unlocked xs v, ?_, ?_, ?_⟩
  · simp [Enqueue_unlocked, GetLen]
  · intro j hj
    simp only [Enqueue_unlocked]
    exact List.getElem?_append_left hj
  · simp [Enqueue_unlocked]

theorem Enqueue_appends_witness :
    Enqueue (⟨[7, 8], false⟩ : FIFO Nat) 9 = (⟨[7, 8, 9], false⟩, none) :=
  (Enqueue_appends (⟨[7, 8], false⟩ : FIFO Nat) 9 rfl).1

theorem locked_ne_empty : errors_New "The queue is locked" ≠ fmt_Errorf "queue is empty" := by
  decide

theorem locked_ne_index (j : Int) :
    errors_New "The queue is locked" ≠ fmt_Errorf_v "index out of bounds: " j := by
  intro h
  have h1 : "The queue is locked" = "index out of bounds: " ++ toString j := by
    simpa [errors_New, fmt_Errorf_v] using h
  have h2 := congrArg String.data h1
  rw [String.data_append] at h2
  have h3 := congrArg List.head? h2
  simp at h3

/-- C4 (the lock gate).  After `Lock()`, whatever the sequence holds and
whatever value or index is passed, `Enqueue`, `Dequeue`, `Get` and `Remove` each
return the error built by `errors.New("The queue is locked")`, which is neither
the empty-queue error nor an index-out-of-bounds error, and hand back the queue
as it was, with the sequence it had before `Lock()`. -/
theorem locked_calls_fail {α : Type} (st : FIFO α) (v : α) (i : Int) :
    Enqueue (Lock st) v = (Lock st, some (errors_New "The queue is locked"))
      ∧ Dequeue (Lock st) = .ret (Lock st, none, some (errors_New "The queue is locked"))
      ∧ Get (Lock st) i = .ret (Lock st, none, some (errors_New "The queue is locked"))
      ∧ Remove (Lock st) i = .ret (Lock st, some (errors_New "The queue is locked"))
      ∧ (Lock st).slice = st.slice
      ∧ errors_New "The queue is locked" ≠ fmt_Errorf "queue is empty"
      ∧ ∀ j : Int, errors_New "The queue is locked" ≠ fmt_Errorf_v "index out of bounds: " j := by
  refine ⟨?_, ?_, ?_, ?_, rfl, locked_ne_empty, locked_ne_index⟩ <;>
    simp [Enqueue, Dequeue, Get, Remove, Lock]

/-- C5 (Dequeue on an empty queue).  On an unlocked queue with `GetLen() == 0`,
`Dequeue` returns no value and the error built by `fmt.Errorf("queue is empty")`,
and the queue it leaves is the queue it was given, still of length 0. -/
theorem Dequeue_empty {α : Type} (st : FIFO α)
    (hl : st.isLocked = false) (h0 : GetLen st = 0) :
    Dequeue st = .ret (st, none, some (fmt_Errorf "queue is empty"))
      ∧ ∀ st1 r, Dequeue st = .ret (st1, r) → st1 = st ∧ GetLen st1 = 0 := by
  have h : Dequeue st = .ret (st, none, some (fmt_Errorf "queue is empty")) := by
    obtain ⟨xs, b⟩ := st
    simp only at hl
    subst hl
    have hx : xs = [] := by
      simpa [GetLen] using h0
    subst hx
    exact Dequeue_nil
  refine ⟨h, ?_⟩
  intro st1 r hr
  rw [h] at hr
  have hst : st = st1 := (Prod.mk.inj (Outcome.ret.inj hr)).1
  subst hst
  exact ⟨rfl, h0⟩

theorem Dequeue_empty_witness :
    Dequeue (NewFIFO Nat) = .ret (NewFIFO Nat, none, some (fmt_Errorf "queue is empty")) :=
  (Dequeue_empty (NewFIFO Nat) rfl rfl).1

/-- C6 (index bounds).  On an unlocked queue of length `L`: for `0 <= i < L`
both `Get(i)` and `Remove(i)` return a `nil` error; for `i >= L` both return
the error built by `fmt.Errorf("index out of bounds: %v", i)` and leave the
queue as it was. -/
theorem index_bounds {α : Type} (st : FIFO α) (i : Int) (hl : st.isLocked = false) :
    (0 ≤ i → i < GetLen st →
        (∃ x, Get st i = .ret (st, some x, none)) ∧ (∃ st1, Remove st i = .ret (st1, none)))
      ∧ (GetLen st ≤ i →
        Get st i = .ret (st, none, some (fmt_Errorf_v "index out of bounds: " i))
          ∧ Remove st i = .ret (st, some (fmt_Errorf_v "index out of bounds: " i))) := by
  obtain ⟨xs, b⟩ := st
  simp only at hl
  subst hl
  simp only [GetLen]
  constructor
  · intro h0 h1
    obtain ⟨n, rfl⟩ := Int.eq_ofNat_of_zero_le h0
    have hn : n < xs.length := by omega
    exact ⟨⟨xs[n], Get_in_range xs n xs[n] (List.getElem?_eq_getElem hn)⟩,
      ⟨_, Remove_in_range xs n hn⟩⟩
  · intro h
    simp [Get, Remove, h]

theorem index_bounds_witness :
    (∃ x, Get (⟨[7, 8, 9], false⟩ : FIFO Nat) 2 = .ret (⟨[7, 8, 9], false⟩, some x, none))
      ∧ (∃ st1, Remove (⟨[7, 8, 9], false⟩ : FIFO Nat) 2 = .ret (st1, none)) :=
  (index_bounds (⟨[7, 8, 9], false⟩ : FIFO Nat) 2 rfl).1 (by decide) (by decide)

/-- C7 (negative indices).  On an unlocked queue, `Get` with a negative index
does not return: the index expression `st.slice[index]` panics; `Remove` with a
negative index panics in the slice expression `st.slice[:index]`.  Neither
returns an error value. -/
theorem negative_index_panics {α : Type} (xs : List α) (n : Nat) :
    Get (⟨xs, false⟩ : FIFO α) (Int.negSucc n)
        = .panic (.indexOutOfRange (Int.negSucc n) xs.length)
      ∧ Remove (⟨xs, false⟩ : FIFO α) (Int.negSucc n)
        = .panic (.sliceBoundsOutOfRange (Int.negSucc n) xs.length) := by
  have hneg : Int.negSucc n < 0 := Int.negSucc_lt_zero n
  have h : ¬ ((xs.length : Int) ≤ Int.negSucc n) := by omega
  constructor
  · simp [Get, h, goIndex_neg _ _ hneg, Outcome.bind]
  · simp [Remove, h, goSliceTo_neg _ _ hneg, Outcome.bind]

/-- C8 (Remove keeps the relative order).  On an unlocked queue with sequence
`xs` and `0 <= i < len(xs)`, `Remove(i)` returns a `nil` error and the sequence
becomes `xs` without its element at position `i`: one element fewer, positions
before `i` untouched, and the element that was at position `j+1` for `j >= i`
now at position `j`.  From a new queue, enqueueing `A, B, C, D`, then
`Remove(1)`, then three `Dequeue` calls gives `A`, `C`, `D`. -/
theorem Remove_keeps_order {α : Type} (st : FIFO α) (i : Int)
    (hl : st.isLocked = false) (h0 : 0 ≤ i) (h1 : i < GetLen st) :
    Remove st i = .ret ({ st with slice := st.slice.eraseIdx i.toNat }, none)
      ∧ GetLen ({ st with slice := st.slice.eraseIdx i.toNat } : FIFO α) = GetLen st - 1
      ∧ (∀ j : Nat, j < i.toNat → (st.slice.eraseIdx i.toNat)[j]? = st.slice[j]?)
      ∧ (∀ j : Nat, i.toNat ≤ j → (st.slice.eraseIdx i.toNat)[j]? = st.slice[j + 1]?)
      ∧ ∀ (recover : Bool) (A B C D : α),
          run recover (NewFIFO α)
              [.Enqueue A, .Enqueue B, .Enqueue C, .Enqueue D, .Remove 1,
                .Dequeue, .Dequeue, .Dequeue]
            = (NewFIFO α,
                [(.Enqueue A, .error none), (.Enqueue B, .error none),
                  (.Enqueue C, .error none), (.Enqueue D, .error none),
                  (.Remove 1, .error none), (.Dequeue, .valueError (some A) none),
                  (.Dequeue, .valueError (some C) none),
                  (.Dequeue, .valueError (some D) none)]) := by
  obtain ⟨xs, b⟩ := st
  simp only at hl
  subst hl
  simp only [GetLen] at h1 ⊢
  obtain ⟨n, rfl⟩ := Int.eq_ofNat_of_zero_le h0
  have hn : n < xs.length := by omega
  simp only [Int.toNat_ofNat]
  refine ⟨Remove_in_range xs n hn, ?_, ?_, ?_, ?_⟩
  · rw [List.length_eraseIdx, if_pos hn]
    omega
  · intro j hj
    exact List.getElem?_eraseIdx_of_lt xs n j hj
  · intro j hj
    exact List.getElem?_eraseIdx_of_ge xs n j hj
  · intro recover A B C D
    have hr : Remove (⟨[A, B, C, D], false⟩ : FIFO α) 1 = .ret (⟨[A, C, D], false⟩, none) :=
      Remove_in_range [A, B, C, D] 1 (by simp)
    simp [run, call, NewFIFO, FIFO.init, Enqueue_unlocked, Dequeue_cons, Res.isPanic, hr]

theorem Remove_keeps_order_witness :
    Remove (⟨[7, 8, 9, 10], false⟩ : FIFO Nat) 1 = .ret (⟨[7, 9, 10], false⟩, none) :=
  (Remove_keeps_order (⟨[7, 8, 9, 10], false⟩ : FIFO Nat) 1 rfl (by decide) (by decide)).1

/-- C9 (Get does not change the queue).  On an unlocked queue with sequence
`xs` and `0 <= i < len(xs)`, `Get(i)` returns the element at position `i` with a
`nil` error and hands back the queue exactly as it was, sequence and lock gate;
and `Get(0)` returns the value that a `Dequeue` called right after it
returns. -/
theorem Get_keeps_queue {α : Type} (st : FIFO α) (i : Int)
    (hl : st.isLocked = false) (h0 : 0 ≤ i) (h1 : i < GetLen st) :
    (∃ x, st.slice[i.toNat]? = some x ∧ Get st i = .ret (st, some x, none))
      ∧ ∃ x st1 st2, Get st 0 = .ret (st1, some x, none)
          ∧ Dequeue st1 = .ret (st2, some x, none) := by
  obtain ⟨xs, b⟩ := st
  simp only at hl
  subst hl
  simp only [GetLen] at h1
  obtain ⟨n, rfl⟩ := Int.eq_ofNat_of_zero_le h0
  have hn : n < xs.length := by omega
  constructor
  · exact ⟨xs[n], by simp [hn], Get_in_range xs n xs[n] (List.getElem?_eq_getElem hn)⟩
  · cases xs with
    | nil => simp at hn
    | cons x rest =>
      exact ⟨x, ⟨x :: rest, false⟩, ⟨rest, false⟩, Get_in_range (x :: rest) 0 x (by simp),
        Dequeue_cons x rest⟩

theorem Get_keeps_queue_witness :
    ∃ x, [7, 8][(1 : Int).toNat]? = some x
      ∧ Get (⟨[7, 8], false⟩ : FIFO Nat) 1 = .ret (⟨[7, 8], false⟩, some x, none) :=
  (Get_keeps_queue (⟨[7, 8], false⟩ : FIFO Nat) 1 rfl (by decide) (by decide)).1

/-! ## Runs of calls -/

theorem call_length {α : Type} (st : FIFO α) (op : Op α) :
    GetLen (call st op).1
        + (if okDequeue (op, (call st op).2) then 1 else 0)
        + (if okRemove (op, (call st op).2) then 1 else 0)
      = GetLen st + (if okEnqueue (op, (call st op).2) then 1 else 0) := by
  obtain ⟨xs, b⟩ := st
  cases b with
  | true =>
    cases op <;>
      simp [call, Enqueue, Dequeue, Get, Remove, Lock, Unlock, GetLen, okEnqueue, okDequeue,
        okRemove]
  | false =>
    cases op with
    | Enqueue v =>
      simp [call, Enqueue_unlocked, GetLen, okEnqueue, okDequeue, okRemove]
    | Dequeue =>
      cases xs with
      | nil => simp [call, Dequeue_nil, GetLen, okEnqueue, okDequeue, okRemove]
      | cons x rest => simp [call, Dequeue_cons, GetLen, okEnqueue, okDequeue, okRemove]
    | Get i =>
      have h : (call (⟨xs, false⟩ : FIFO α) (.Get i)).1 = ⟨xs, false⟩ := by
        simp only [call]
        by_cases hi : (xs.length : Int) ≤ i
        · simp [Get, hi]
        · cases hg : goIndex xs i <;> simp [Get, hi, hg, Outcome.bind]
      rw [h]
      simp [okEnqueue, okDequeue, okRemove]
    | Remove i =>
      by_cases hi : (xs.length : Int) ≤ i
      · simp [call, Remove, hi, GetLen, okEnqueue, okDequeue, okRemove]
      · by_cases hneg : i < 0
        · simp [call, Remove, hi, goSliceTo_neg _ _ hneg, Outcome.bind, GetLen, okEnqueue,
            okDequeue, okRemove]
        · obtain ⟨n, rfl⟩ := Int.eq_ofNat_of_zero_le (not_lt.mp hneg)
          have hn : n < xs.length := by omega
          simp only [call, Remove_in_range xs n hn, GetLen, okEnqueue, okDequeue, okRemove,
            List.length_eraseIdx, if_pos hn]
          simp
          omega
    | GetLen => simp [call, okEnqueue, okDequeue, okRemove]
    | Lock => simp [call, Lock, GetLen, okEnqueue, okDequeue, okRemove]
    | Unlock => simp [call, Unlock, GetLen, okEnqueue, okDequeue, okRemove]
    | IsLocked => simp [call, okEnqueue, okDequeue, okRemove]

theorem run_length {α : Type} (recover : Bool) (ops : List (Op α)) (st : FIFO α) :
    GetLen (run recover st ops).1
        + ((run recover st ops).2.countP okDequeue : Int)
        + ((run recover st ops).2.countP okRemove : Int)
      = GetLen st + ((run recover st ops).2.countP okEnqueue : Int) := by
  induction ops generalizing st with
  | nil => simp [run]
  | cons op ops ih =>
    have hc := call_length st op
    have hi := ih (call st op).1
    simp only [run]
    split
    · simp only [List.countP_cons, List.countP_nil]
      push_cast
      omega
    · simp only [List.countP_cons]
      push_cast
      omega

theorem run_log_calls {α : Type} (ops : List (Op α)) (st : FIFO α) :
    (run true st ops).2.map Prod.fst = ops := by
  induction ops generalizing st with
  | nil => simp [run]
  | cons op ops ih => simp [run, ih]

/-- C10 (length accounting).  For every list of calls made one after the other
on a new queue, `GetLen()` at the end equals the number of `Enqueue` calls that
returned a `nil` error, minus the number of `Dequeue` calls that returned a
`nil` error, minus the number of `Remove` calls that returned a `nil` error.
This holds whether a panicking call ends the run or the caller recovers and
goes on; in the latter case the log holds every call of the list. -/
theorem length_accounting {α : Type} (recover : Bool) (ops : List (Op α)) :
    GetLen (run recover (NewFIFO α) ops).1
        = ((run recover (NewFIFO α) ops).2.countP okEnqueue : Int)
          - ((run recover (NewFIFO α) ops).2.countP okDequeue : Int)
          - ((run recover (NewFIFO α) ops).2.countP okRemove : Int)
      ∧ (run true (NewFIFO α) ops).2.map Prod.fst = ops := by
  refine ⟨?_, run_log_calls ops _⟩
  have h := run_length recover ops (NewFIFO α)
  have h0 : GetLen (NewFIFO α) = 0 := rfl
  omega

/-! ## Decimal rendering -/

theorem digitChar_value (k : Nat) (hk : k < 10) : (Nat.digitChar k).toNat - 48 = k := by
  interval_cases k <;> rfl

theorem foldl_toDigitsCore (fuel n : Nat) (ds : List Char) (h : n < fuel) :
    (Nat.toDigitsCore 10 fuel n ds).foldl (fun acc c => acc * 10 + (c.toNat - 48)) 0
      = ds.foldl (fun acc c => acc * 10 + (c.toNat - 48)) n := by
  induction fuel generalizing n ds with
  | zero => omega
  | succ fuel ih =>
    have hd : (Nat.digitChar (n % 10)).toNat - 48 = n % 10 :=
      digitChar_value (n % 10) (Nat.mod_lt n (by decide))
    by_cases h0 : n / 10 = 0
    · have hn : n % 10 = n := by omega
      rw [hn] at hd
      simp [Nat.toDigitsCore, h0, hd, hn]
    · have hlt : n / 10 < fuel := by omega
      have hn : n / 10 * 10 + n % 10 = n := by omega
      simp [Nat.toDigitsCore, h0, ih (n / 10) _ hlt, hd, hn]

theorem decimalValue_toString (n : Nat) : decimalValue (toString n).data = n := by
  have h := foldl_toDigitsCore (n + 1) n [] (Nat.lt_succ_self n)
  simpa [decimalValue, toString, Nat.repr, Nat.toDigits, List.asString] using h

theorem decimalValue_toString_int (n : Nat) :
    decimalValue (toString (n : Int)).data = n := by
  have h : toString (n : Int) = toString n := rfl
  rw [h, decimalValue_toString]

theorem fmt_Errorf_v_inj (lead : String) (m n : Nat)
    (h : fmt_Errorf_v lead (m : Int) = fmt_Errorf_v lead (n : Int)) : m = n := by
  have h1 : lead ++ toString (m : Int) = lead ++ toString (n : Int) := by
    simpa [fmt_Errorf_v] using h
  have h2 := congrArg String.data h1
  rw [String.data_append, String.data_append] at h2
  have h3 := congrArg decimalValue (List.append_cancel_left h2)
  simpa [decimalValue_toString_int] using h3

/-! ## Failing calls and the gate -/

theorem Get_state {α : Type} (st st1 : FIFO α) (i : Int) (r : Option α × Option GoError)
    (h : Get st i = .ret (st1, r)) : st1 = st := by
  unfold Get at h
  split at h
  · exact ((Prod.mk.inj (Outcome.ret.inj h)).1).symm
  · split at h
    · exact ((Prod.mk.inj (Outcome.ret.inj h)).1).symm
    · cases hg : goIndex st.slice i with
      | ret x =>
        rw [hg] at h
        exact ((Prod.mk.inj (Outcome.ret.inj h)).1).symm
      | panic e =>
        rw [hg] at h
        simp [Outcome.bind] at h

theorem Dequeue_error_state {α : Type} (st st1 : FIFO α) (x : Option α) (e : GoError)
    (h : Dequeue st = .ret (st1, x, some e)) : st1 = st := by
  obtain ⟨xs, b⟩ := st
  cases b with
  | true =>
    simp only [Dequeue, if_true] at h
    exact ((Prod.mk.inj (Outcome.ret.inj h)).1).symm
  | false =>
    cases xs with
    | nil =>
      rw [Dequeue_nil] at h
      exact ((Prod.mk.inj (Outcome.ret.inj h)).1).symm
    | cons y rest =>
      rw [Dequeue_cons] at h
      simp at h

theorem Remove_error_state {α : Type} (st st1 : FIFO α) (i : Int) (e : GoError)
    (h : Remove st i = .ret (st1, some e)) : st1 = st := by
  obtain ⟨xs, b⟩ := st
  cases b with
  | true =>
    simp only [Remove, if_true] at h
    exact ((Prod.mk.inj (Outcome.ret.inj h)).1).symm
  | false =>
    by_cases hi : (xs.length : Int) ≤ i
    · simp only [Remove, hi, if_true] at h
      simp at h
      exact h.1.symm
    · by_cases hneg : i < 0
      · simp [Remove, hi, goSliceTo_neg _ _ hneg, Outcome.bind] at h
      · obtain ⟨n, rfl⟩ := Int.eq_ofNat_of_zero_le (not_lt.mp hneg)
        have hn : n < xs.length := by omega
        rw [Remove_in_range xs n hn] at h
        simp at h

theorem Enqueue_error_state {α : Type} (st : FIFO α) (v : α) (e : GoError)
    (h : (Enqueue st v).2 = some e) : (Enqueue st v).1 = st := by
  obtain ⟨xs, b⟩ := st
  cases b with
  | true => simp [Enqueue]
  | false => simp [Enqueue] at h

theorem call_error_state {α : Type} (st : FIFO α) (op : Op α) (e : GoError)
    (h : (call st op).2.err? = some e) : (call st op).1 = st := by
  cases op with
  | Enqueue v => exact Enqueue_error_state st v e (by simpa [call, Res.err?] using h)
  | Dequeue =>
    cases hd : Dequeue st with
    | ret r =>
      obtain ⟨st1, x, err⟩ := r
      simp only [call, hd, Res.err?] at h ⊢
      subst h
      exact Dequeue_error_state st st1 x e hd
    | panic e1 => simp [call, hd]
  | Get i =>
    cases hd : Get st i with
    | ret r =>
      obtain ⟨st1, r1⟩ := r
      simp only [call, hd]
      exact Get_state st st1 i r1 hd
    | panic e1 => simp [call, hd]
  | Remove i =>
    cases hd : Remove st i with
    | ret r =>
      obtain ⟨st1, err⟩ := r
      simp only [call, hd, Res.err?] at h ⊢
      subst h
      exact Remove_error_state st st1 i e hd
    | panic e1 => simp [call, hd]
  | GetLen => simp [call]
  | Lock => simp [call, Res.err?] at h
  | Unlock => simp [call, Res.err?] at h
  | IsLocked => simp [call]

/-- C11 (failure atomicity).  Whenever `Enqueue`, `Dequeue`, `Get` or `Remove`
returns an error that is not `nil`, the queue it leaves is the queue it was
given, sequence and lock gate alike; so any calls made afterwards give what
they would have given had the failed call not been made. -/
theorem failure_atomic {α : Type} (st : FIFO α) (v : α) (i : Int) (e : GoError) :
    ((Enqueue st v).2 = some e → (Enqueue st v).1 = st)
      ∧ (∀ st1 x, Dequeue st = .ret (st1, x, some e) → st1 = st)
      ∧ (∀ st1 x, Get st i = .ret (st1, x, some e) → st1 = st)
      ∧ (∀ st1, Remove st i = .ret (st1, some e) → st1 = st)
      ∧ ∀ op : Op α, (call st op).2.err? = some e →
          ∀ (recover : Bool) (ops : List (Op α)),
            run recover (call st op).1 ops = run recover st ops := by
  refine ⟨Enqueue_error_state st v e, ?_, ?_, ?_, ?_⟩
  · intro st1 x h
    exact Dequeue_error_state st st1 x e h
  · intro st1 x h
    exact Get_state st st1 i _ h
  · intro st1 h
    exact Remove_error_state st st1 i e h
  · intro op h recover ops
    rw [call_error_state st op e h]

theorem failure_atomic_witness :
    run false (call (NewFIFO Nat) Op.Dequeue).1 [Op.Enqueue 5, Op.Dequeue]
      = run false (NewFIFO Nat) [Op.Enqueue 5, Op.Dequeue] :=
  (failure_atomic (NewFIFO Nat) 0 0 (fmt_Errorf "queue is empty")).2.2.2.2
    Op.Dequeue (by decide) false [Op.Enqueue 5, Op.Dequeue]

theorem call_locked {α : Type} (xs : List α) (op : Op α) (h : op.isGated = true) :
    (call (⟨xs, true⟩ : FIFO α) op).1 = ⟨xs, true⟩
      ∧ (call (⟨xs, true⟩ : FIFO α) op).2.err? = some (errors_New "The queue is locked")
      ∧ (call (⟨xs, true⟩ : FIFO α) op).2.isPanic = false := by
  cases op <;>
    simp [Op.isGated] at h <;>
    simp [call, Enqueue, Dequeue, Get, Remove, Res.err?, Res.isPanic]

theorem run_locked {α : Type} (recover : Bool) (xs : List α) (ops : List (Op α))
    (h : ∀ op ∈ ops, op.isGated = true) :
    (run recover (⟨xs, true⟩ : FIFO α) ops).1 = ⟨xs, true⟩
      ∧ (∀ p ∈ (run recover (⟨xs, true⟩ : FIFO α) ops).2,
          p.2.err? = some (errors_New "The queue is locked"))
      ∧ (run recover (⟨xs, true⟩ : FIFO α) ops).2.map Prod.fst = ops := by
  induction ops with
  | nil => simp [run]
  | cons op ops ih =>
    obtain ⟨h1, h2, h3⟩ := call_locked xs op (h op (List.mem_cons_self op ops))
    obtain ⟨i1, i2, i3⟩ := ih (fun o ho => h o (List.mem_cons_of_mem op ho))
    simp only [run, h3, Bool.false_and, h1]
    refine ⟨i1, ?_, ?_⟩
    · intro p hp
      rcases List.mem_cons.mp hp with hp | hp
      · rw [hp]
        exact h2
      · exact i2 p hp
    · simp [i3]

/-- C12 (what the gate leaves alone).  `Lock`, `Unlock`, `IsLocked` and `GetLen`
leave the sequence as it was; `GetLen` gives the number of elements whether the
gate is set or not.  After `Lock()`, any list of `Enqueue`, `Dequeue`, `Get`
and `Remove` calls is made in full, each call returns the gate error and the
queue stays the locked one; `Unlock()` then gives the unlocked queue holding
exactly the sequence there was before `Lock()`. -/
theorem gate_frame {α : Type} (recover : Bool) (st : FIFO α) (ops : List (Op α))
    (h : ∀ op ∈ ops, op.isGated = true) :
    (Lock st).slice = st.slice ∧ (Unlock st).slice = st.slice
      ∧ (call st .IsLocked).1 = st ∧ (call st .GetLen).1 = st
      ∧ GetLen st = st.slice.length
      ∧ (call (Lock st) .GetLen).2 = .int st.slice.length
      ∧ (call (Unlock st) .GetLen).2 = .int st.slice.length
      ∧ (run recover (Lock st) ops).1 = Lock st
      ∧ (∀ p ∈ (run recover (Lock st) ops).2,
          p.2.err? = some (errors_New "The queue is locked"))
      ∧ (run recover (Lock st) ops).2.map Prod.fst = ops
      ∧ Unlock (run recover (Lock st) ops).1 = ⟨st.slice, false⟩ := by
  obtain ⟨h1, h2, h3⟩ := run_locked recover st.slice ops h
  have hL : Lock st = ⟨st.slice, true⟩ := rfl
  rw [hL]
  refine ⟨rfl, rfl, rfl, rfl, rfl, rfl, rfl, h1, h2, h3, ?_⟩
  rw [h1]
  rfl

theorem gate_frame_witness :
    Unlock (run false (Lock (⟨[7, 8], false⟩ : FIFO Nat))
        [Op.Enqueue 9, Op.Dequeue, Op.Get 0, Op.Remove (-1)]).1
      = ⟨[7, 8], false⟩ :=
  (gate_frame false (⟨[7, 8], false⟩ : FIFO Nat)
    [Op.Enqueue 9, Op.Dequeue, Op.Get 0, Op.Remove (-1)] (by decide)).2.2.2.2.2.2.2.2.2.2

/-- C13 (the gate operations).  Whatever the queue was, `IsLocked()` is `true`
right after `Lock()` and `false` right after `Unlock()`; a second `Lock()` or
`Unlock()` changes nothing more; `IsLocked()` leaves the queue as it was and
reports the flag. -/
theorem gate_operations {α : Type} (st : FIFO α) :
    IsLocked (Lock st) = true ∧ IsLocked (Unlock st) = false
      ∧ Lock (Lock st) = Lock st ∧ Unlock (Unlock st) = Unlock st
      ∧ (call st .IsLocked).1 = st ∧ (call st .IsLocked).2 = .bool st.isLocked
      ∧ (call st .Lock).1 = Lock st ∧ (call st .Unlock).1 = Unlock st :=
  ⟨rfl, rfl, rfl, rfl, rfl, rfl, rfl, rfl⟩

/-- C15 (construction).  `NewFIFO()` gives a queue with an empty sequence, so
`GetLen()` is 0, and with the lock gate clear, so `IsLocked()` is `false`. -/
theorem NewFIFO_empty_unlocked (α : Type) :
    (NewFIFO α).slice = [] ∧ GetLen (NewFIFO α) = 0 ∧ IsLocked (NewFIFO α) = false
      ∧ (call (NewFIFO α) .GetLen).2 = .int 0
      ∧ (call (NewFIFO α) .IsLocked).2 = .bool false :=
  ⟨rfl, rfl, rfl, rfl, rfl⟩

/-! ## Values through a run -/

theorem enqueuedValues_cons {α : Type} (p : Op α × Res α) (log : List (Op α × Res α)) :
    enqueuedValues (p :: log) = enqueuedValues [p] ++ enqueuedValues log := by
  obtain ⟨op, r⟩ := p
  cases op <;> cases r <;> try simp [enqueuedValues]
  rename_i v err
  cases err <;> simp [enqueuedValues]

theorem dequeuedValues_cons {α : Type} (p : Op α × Res α) (log : List (Op α × Res α)) :
    dequeuedValues (p :: log) = dequeuedValues [p] ++ dequeuedValues log := by
  obtain ⟨op, r⟩ := p
  cases op <;> cases r <;> try simp [dequeuedValues]
  rename_i v err
  cases v <;> cases err <;> simp [dequeuedValues]

theorem enqueuedValues_length {α : Type} (log : List (Op α × Res α)) :
    (enqueuedValues log).length = log.countP okEnqueue := by
  induction log with
  | nil => simp [enqueuedValues]
  | cons p log ih =>
    rw [enqueuedValues_cons, List.length_append, ih, List.countP_cons]
    obtain ⟨op, r⟩ := p
    cases op <;> cases r <;> try simp [enqueuedValues, okEnqueue]
    rename_i v err
    cases err <;> simp [enqueuedValues, okEnqueue]
    omega

theorem call_values {α : Type} (st : FIFO α) (op : Op α) :
    List.Sublist (call st op).1.slice (st.slice ++ enqueuedValues [(op, (call st op).2)])
      ∧ (op.isRemove = false →
          dequeuedValues [(op, (call st op).2)] ++ (call st op).1.slice
            = st.slice ++ enqueuedValues [(op, (call st op).2)])
      ∧ (dequeuedValues [(op, (call st op).2)]).length
          = if okDequeue (op, (call st op).2) then 1 else 0 := by
  obtain ⟨xs, b⟩ := st
  cases b with
  | true =>
    cases op <;>
      simp [call, Enqueue, Dequeue, Get, Remove, Lock, Unlock, enqueuedValues, dequeuedValues,
        okDequeue, Op.isRemove]
  | false =>
    cases op with
    | Enqueue v =>
      simp [call, Enqueue_unlocked, enqueuedValues, dequeuedValues, okDequeue, Op.isRemove]
    | Dequeue =>
      cases xs with
      | nil => simp [call, Dequeue_nil, enqueuedValues, dequeuedValues, okDequeue, Op.isRemove]
      | cons x rest =>
        simp [call, Dequeue_cons, enqueuedValues, dequeuedValues, okDequeue, Op.isRemove]
    | Get i =>
      have h : (call (⟨xs, false⟩ : FIFO α) (.Get i)).1 = ⟨xs, false⟩ := by
        simp only [call]
        by_cases hi : (xs.length : Int) ≤ i
        · simp [Get, hi]
        · cases hg : goIndex xs i <;> simp [Get, hi, hg, Outcome.bind]
      rw [h]
      simp [enqueuedValues, dequeuedValues, okDequeue, Op.isRemove]
    | Remove i =>
      by_cases hi : (xs.length : Int) ≤ i
      · simp [call, Remove, hi, enqueuedValues, dequeuedValues, okDequeue, Op.isRemove]
      · by_cases hneg : i < 0
        · simp [call, Remove, hi, goSliceTo_neg _ _ hneg, Outcome.bind, enqueuedValues,
            dequeuedValues, okDequeue, Op.isRemove]
        · obtain ⟨n, rfl⟩ := Int.eq_ofNat_of_zero_le (not_lt.mp hneg)
          have hn : n < xs.length := by omega
          simp [call, Remove_in_range xs n hn, enqueuedValues, dequeuedValues, okDequeue,
            Op.isRemove, List.eraseIdx_sublist]
    | GetLen => simp [call, enqueuedValues, dequeuedValues, okDequeue, Op.isRemove]
    | Lock => simp [call, Lock, enqueuedValues, dequeuedValues, okDequeue, Op.isRemove]
    | Unlock => simp [call, Unlock, enqueuedValues, dequeuedValues, okDequeue, Op.isRemove]
    | IsLocked => simp [call, enqueuedValues, dequeuedValues, okDequeue, Op.isRemove]

theorem run_sublist {α : Type} (recover : Bool) (ops : List (Op α)) (st : FIFO α) :
    List.Sublist (run recover st ops).1.slice
      (st.slice ++ enqueuedValues (run recover st ops).2) := by
  induction ops generalizing st with
  | nil => simp [run, enqueuedValues]
  | cons op ops ih =>
    have hc := (call_values st op).1
    simp only [run]
    split
    · exact hc
    · rw [enqueuedValues_cons, ← List.append_assoc]
      exact (ih (call st op).1).trans (hc.append_right _)

theorem run_conserve {α : Type} (recover : Bool) (ops : List (Op α)) (st : FIFO α)
    (h : ∀ op ∈ ops, op.isRemove = false) :
    dequeuedValues (run recover st ops).2 ++ (run recover st ops).1.slice
      = st.slice ++ enqueuedValues (run recover st ops).2 := by
  induction ops generalizing st with
  | nil => simp [run, enqueuedValues, dequeuedValues]
  | cons op ops ih =>
    have hc := (call_values st op).2.1 (h op (List.mem_cons_self op ops))
    have hi := ih (call st op).1 (fun o ho => h o (List.mem_cons_of_mem op ho))
    simp only [run]
    split
    · exact hc
    · rw [enqueuedValues_cons, dequeuedValues_cons, List.append_assoc, hi,
        ← List.append_assoc, hc, List.append_assoc]

theorem run_dequeued_length {α : Type} (recover : Bool) (ops : List (Op α)) (st : FIFO α) :
    (dequeuedValues (run recover st ops).2).length
      = (run recover st ops).2.countP okDequeue := by
  induction ops generalizing st with
  | nil => simp [run, dequeuedValues]
  | cons op ops ih =>
    have hc := (call_values st op).2.2
    simp only [run]
    split
    · rw [hc, List.countP_cons, List.countP_nil]
      simp
    · rw [dequeuedValues_cons, List.length_append, hc, ih, List.countP_cons]
      omega

/-- C14 (sequence invariant).  For every list of calls made one after the other
on a new queue, the sequence the queue holds at the end is a sublist of the
values passed to the `Enqueue` calls that returned a `nil` error, taken in call
order: every value it holds was enqueued, and values keep the order in which
they were enqueued. -/
theorem sequence_invariant {α : Type} (recover : Bool) (ops : List (Op α)) :
    List.Sublist (run recover (NewFIFO α) ops).1.slice
        (enqueuedValues (run recover (NewFIFO α) ops).2)
      ∧ (∀ v ∈ (run recover (NewFIFO α) ops).1.slice,
          v ∈ enqueuedValues (run recover (NewFIFO α) ops).2)
      ∧ (enqueuedValues (run recover (NewFIFO α) ops).2).length
          = (run recover (NewFIFO α) ops).2.countP okEnqueue := by
  have h := run_sublist recover ops (NewFIFO α)
  have h0 : (NewFIFO α).slice = [] := rfl
  rw [h0, List.nil_append] at h
  exact ⟨h, fun v hv => h.subset hv, enqueuedValues_length _⟩

/-- C19 (conservation without Remove).  For every list of calls other than
`Remove` made one after the other on a new queue, the values returned by the
`Dequeue` calls with a `nil` error, in call order, followed by the sequence
left in the queue, are exactly the values passed to the `Enqueue` calls with a
`nil` error, in call order; so the k-th such `Dequeue` returned the value of
the k-th such `Enqueue`. -/
theorem conservation {α : Type} (recover : Bool) (ops : List (Op α))
    (h : ∀ op ∈ ops, op.isRemove = false) :
    dequeuedValues (run recover (NewFIFO α) ops).2 ++ (run recover (NewFIFO α) ops).1.slice
        = enqueuedValues (run recover (NewFIFO α) ops).2
      ∧ (∀ (k : Nat) (v : α), (dequeuedValues (run recover (NewFIFO α) ops).2)[k]? = some v →
          (enqueuedValues (run recover (NewFIFO α) ops).2)[k]? = some v)
      ∧ (dequeuedValues (run recover (NewFIFO α) ops).2).length
          = (run recover (NewFIFO α) ops).2.countP okDequeue
      ∧ (enqueuedValues (run recover (NewFIFO α) ops).2).length
          = (run recover (NewFIFO α) ops).2.countP okEnqueue := by
  have hc := run_conserve recover ops (NewFIFO α) h
  have h0 : (NewFIFO α).slice = [] := rfl
  rw [h0, List.nil_append] at hc
  refine ⟨hc, ?_, run_dequeued_length recover ops _, enqueuedValues_length _⟩
  intro k v hk
  rw [← hc]
  have hlt : k < (dequeuedValues (run recover (NewFIFO α) ops).2).length :=
    (List.getElem?_eq_some_iff.mp hk).1
  rw [List.getElem?_append_left hlt]
  exact hk

theorem conservation_witness :
    dequeuedValues (run false (NewFIFO Nat)
          [Op.Enqueue 4, Op.Lock, Op.Enqueue 5, Op.Unlock, Op.Enqueue 6, Op.Get 0, Op.Dequeue]).2
        ++ (run false (NewFIFO Nat)
          [Op.Enqueue 4, Op.Lock, Op.Enqueue 5, Op.Unlock, Op.Enqueue 6, Op.Get 0, Op.Dequeue]).1.slice
      = enqueuedValues (run false (NewFIFO Nat)
          [Op.Enqueue 4, Op.Lock, Op.Enqueue 5, Op.Unlock, Op.Enqueue 6, Op.Get 0, Op.Dequeue]).2 :=
  (conservation false
    [Op.Enqueue 4, Op.Lock, Op.Enqueue 5, Op.Unlock, Op.Enqueue 6, Op.Get 0, Op.Dequeue]
    (by decide)).1

/-! ## Error values -/

theorem empty_ne_index (j : Int) :
    fmt_Errorf "queue is empty" ≠ fmt_Errorf_v "index out of bounds: " j := by
  intro h
  have h1 : "queue is empty" = "index out of bounds: " ++ toString j := by
    simpa [fmt_Errorf, fmt_Errorf_v] using h
  have h2 := congrArg String.data h1
  rw [String.data_append] at h2
  have h3 := congrArg List.head? h2
  simp at h3

/-- C16 (the index error carries the index).  On an unlocked queue of length
`L` and for `i >= L`, `Get(i)` and `Remove(i)` return the error whose text is
`index out of bounds: ` followed by the decimal digits of `i` (read back as a
number they give `i`); for two different indices `i, j >= L` the two errors
differ. -/
theorem index_error_carries_index {α : Type} (st : FIFO α) (i j : Int)
    (hl : st.isLocked = false) (hi : GetLen st ≤ i) (hj : GetLen st ≤ j) :
    Get st i = .ret (st, none, some ⟨"index out of bounds: " ++ toString i⟩)
      ∧ Remove st i = .ret (st, some ⟨"index out of bounds: " ++ toString i⟩)
      ∧ (decimalValue (toString i).data : Int) = i
      ∧ (i ≠ j →
          (⟨"index out of bounds: " ++ toString i⟩ : GoError)
            ≠ ⟨"index out of bounds: " ++ toString j⟩) := by
  obtain ⟨xs, b⟩ := st
  simp only at hl
  subst hl
  simp only [GetLen] at hi hj
  obtain ⟨m, rfl⟩ := Int.eq_ofNat_of_zero_le (le_trans (Int.ofNat_nonneg xs.length) hi)
  obtain ⟨n, rfl⟩ := Int.eq_ofNat_of_zero_le (le_trans (Int.ofNat_nonneg xs.length) hj)
  refine ⟨?_, ?_, ?_, ?_⟩
  · simp [Get, hi, fmt_Errorf_v]
  · simp [Remove, hi, fmt_Errorf_v]
  · rw [decimalValue_toString_int]
  · intro hne heq
    exact hne (congrArg Int.ofNat (fmt_Errorf_v_inj "index out of bounds: " m n heq))

theorem index_error_carries_index_witness :
    Get (⟨[7, 8], false⟩ : FIFO Nat) 12
        = .ret (⟨[7, 8], false⟩, none, some ⟨"index out of bounds: " ++ toString (12 : Int)⟩)
      ∧ (⟨"index out of bounds: " ++ toString (12 : Int)⟩ : GoError)
          ≠ ⟨"index out of bounds: " ++ toString (2 : Int)⟩ :=
  ⟨(index_error_carries_index (⟨[7, 8], false⟩ : FIFO Nat) 12 2 rfl (by decide) (by decide)).1,
    (index_error_carries_index (⟨[7, 8], false⟩ : FIFO Nat) 12 2 rfl (by decide)
      (by decide)).2.2.2 (by decide)⟩

/-- The gate error of the source does not have the text `the queue is locked`:
on a locked new queue `Enqueue` returns an error whose text starts with a
capital letter. -/
theorem locked_message_lowercase_fails :
    ∃ e : GoError, (Enqueue (Lock (NewFIFO Nat)) 0).2 = some e
      ∧ e.text = "The queue is locked" ∧ e.text ≠ "the queue is locked" :=
  ⟨errors_New "The queue is locked", rfl, rfl, by decide⟩

/-- C17 (error messages, as the code has them).  On every locked queue the
error returned by `Enqueue`, `Dequeue`, `Get` and `Remove` has exactly the text
`The queue is locked`; on the unlocked empty queue the error returned by
`Dequeue` has exactly the text `queue is empty`; the gate error, the
empty-queue error and every index-out-of-bounds error are pairwise different. -/
theorem error_messages {α : Type} (xs : List α) (v : α) (i j : Int) :
    (Enqueue (⟨xs, true⟩ : FIFO α) v).2 = some ⟨"The queue is locked"⟩
      ∧ Dequeue (⟨xs, true⟩ : FIFO α) = .ret (⟨xs, true⟩, none, some ⟨"The queue is locked"⟩)
      ∧ Get (⟨xs, true⟩ : FIFO α) i = .ret (⟨xs, true⟩, none, some ⟨"The queue is locked"⟩)
      ∧ Remove (⟨xs, true⟩ : FIFO α) i = .ret (⟨xs, true⟩, some ⟨"The queue is locked"⟩)
      ∧ Dequeue (⟨[], false⟩ : FIFO α) = .ret (⟨[], false⟩, none, some ⟨"queue is empty"⟩)
      ∧ (⟨"The queue is locked"⟩ : GoError) ≠ ⟨"queue is empty"⟩
      ∧ (⟨"The queue is locked"⟩ : GoError) ≠ ⟨"index out of bounds: " ++ toString j⟩
      ∧ (⟨"queue is empty"⟩ : GoError) ≠ ⟨"index out of bounds: " ++ toString j⟩ := by
  refine ⟨?_, ?_, ?_, ?_, Dequeue_nil, locked_ne_empty, locked_ne_index j, empty_ne_index j⟩ <;>
    simp [Enqueue, Dequeue, Get, Remove, errors_New]

/-! ## Dequeue against Get and Remove -/

/-- C20 (Dequeue is Get(0) then Remove(0)).  On an unlocked queue that is not
empty, `Dequeue()` returns the value `Get(0)` returns, and leaves the queue
that `Remove(0)` leaves (same sequence, same gate).  On an unlocked empty queue
all three fail and leave the queue as it was, `Dequeue` with the empty-queue
error and `Get(0)`, `Remove(0)` with the index-out-of-bounds error for 0, which
is a different error. -/
theorem Dequeue_is_Get_Remove {α : Type} (st : FIFO α) (hl : st.isLocked = false) :
    (st.slice ≠ [] →
        ∃ x st1, Dequeue st = .ret (st1, some x, none)
          ∧ Get st 0 = .ret (st, some x, none)
          ∧ Remove st 0 = .ret (st1, none))
      ∧ (st.slice = [] →
        Dequeue st = .ret (st, none, some (fmt_Errorf "queue is empty"))
          ∧ Get st 0 = .ret (st, none, some (fmt_Errorf_v "index out of bounds: " 0))
          ∧ Remove st 0 = .ret (st, some (fmt_Errorf_v "index out of bounds: " 0))
          ∧ (fmt_Errorf_v "index out of bounds: " 0).text = "index out of bounds: 0"
          ∧ fmt_Errorf "queue is empty" ≠ fmt_Errorf_v "index out of bounds: " 0) := by
  obtain ⟨xs, b⟩ := st
  simp only at hl
  subst hl
  constructor
  · intro hne
    cases xs with
    | nil => exact absurd rfl hne
    | cons x rest =>
      exact ⟨x, ⟨rest, false⟩, Dequeue_cons x rest, Get_in_range (x :: rest) 0 x (by simp),
        Remove_in_range (x :: rest) 0 (by simp)⟩
  · intro he
    simp only at he
    subst he
    refine ⟨Dequeue_nil, ?_, ?_, by decide, empty_ne_index 0⟩
    · simp [Get]
    · simp [Remove]

theorem Dequeue_is_Get_Remove_witness :
    ∃ x st1, Dequeue (⟨[7, 8], false⟩ : FIFO Nat) = .ret (st1, some x, none)
      ∧ Get (⟨[7, 8], false⟩ : FIFO Nat) 0 = .ret (⟨[7, 8], false⟩, some x, none)
      ∧ Remove (⟨[7, 8], false⟩ : FIFO Nat) 0 = .ret (st1, none) :=
  (Dequeue_is_Get_Remove (⟨[7, 8], false⟩ : FIFO Nat) rfl).1 (by decide)

end goconcurrentqueue
